import Mathlib

/-!
Shallow embedding of the "maximal axis-aligned rectangle contained in a
rectilinear polygon" solver (Advent-of-Code 2025 day 9 solution: `part1`,
`part2` and their helpers `area`, `getInteriorAtY`, `mergeRanges`,
`getCoverageAtY`, `lowerBound`, `isRectangleValid`).

Every y-value the algorithm manipulates is a multiple of 1/2: vertex rows are
integers, the epsilon offsets are ±0.5 and the extra samples are midpoints of
two integers.  The source works with JavaScript doubles, which are exact on
these values; the embedding represents such a number exactly as a `Half`, an
integer holding the doubled value.  `Half.toRat` and the lemmas following it
establish that `Half` is an ordered-field-fragment-faithful copy of those
rationals, so integer comparisons on the doubled values coincide with the
source's floating comparisons.

The source's stable `Array.prototype.sort` with an ascending comparator is
modelled by `List.insertionSort`, which is stable and structurally recursive.
The mutable `Map` coverage cache is modelled by an association list threaded
through the functions that use it; `Map.set` on a fresh key is list cons, and
`Map.get` is `List.lookup`.
-/

namespace Day9

/-- Exact half-integers: `Half.mk t` denotes the rational number `t / 2`. -/
structure Half where
  twice : Int
deriving DecidableEq, Repr

instance : LE Half :=
  ⟨fun a b => a.twice ≤ b.twice⟩

instance : LT Half :=
  ⟨fun a b => a.twice < b.twice⟩

instance (a b : Half) : Decidable (a ≤ b) :=
  inferInstanceAs (Decidable (a.twice ≤ b.twice))

instance (a b : Half) : Decidable (a < b) :=
  inferInstanceAs (Decidable (a.twice < b.twice))

instance : Add Half :=
  ⟨fun a b => ⟨a.twice + b.twice⟩⟩

instance : Sub Half :=
  ⟨fun a b => ⟨a.twice - b.twice⟩⟩

/-- Embed an integer coordinate into the half-integers. -/
def Half.ofInt (n : Int) : Half :=
  ⟨2 * n⟩

/-- Midpoint `(a + b) / 2` of two integers, which is exactly a `Half`. -/
def Half.avgInt (a b : Int) : Half :=
  ⟨a + b⟩

/-- The epsilon `0.5` used by `getCoverageAtY` to sample just off a vertex row. -/
def eps : Half :=
  ⟨1⟩

/-- Denotation of a half-integer as a rational number. -/
def Half.toRat (a : Half) : ℚ :=
  (a.twice : ℚ) / 2

/-- Integer lattice point, as parsed from an input line `"x,y"`. -/
structure Point where
  x : Int
  y : Int
deriving DecidableEq, Repr

/-- Inclusive lattice area of the bounding box of two points:
`(|dx| + 1) * (|dy| + 1)`. -/
def area (p1 p2 : Point) : Nat :=
  ((p2.x - p1.x).natAbs + 1) * ((p2.y - p1.y).natAbs + 1)

/-- All unordered pairs `(points[i], points[j])` with `i < j`, in the order the
source's nested `for` loops visit them. -/
def pairsList {α : Type} : List α → List (α × α)
  | [] => []
  | p :: rest => (rest.map fun q => (p, q)) ++ pairsList rest

/-- Part 1: maximum bounding-box area over all pairs of points, with no
containment constraint.  The source's `if (currentArea > maxArea)` update is
kept verbatim. -/
def part1 (points : List Point) : Nat :=
  (pairsList points).foldl
    (fun maxArea pq =>
      let currentArea := area pq.1 pq.2
      if maxArea < currentArea then currentArea else maxArea)
    0

/-- Inclusive interval of x-coordinates.  The source's field `end` is a Lean
keyword and is embedded as `stop`. -/
structure Range where
  start : Int
  stop : Int
deriving DecidableEq, Repr

/-- Horizontal polygon edge at row `y`, spanning `x1 ≤ x2`. -/
structure HorizontalEdge where
  y : Int
  x1 : Int
  x2 : Int
deriving DecidableEq, Repr

/-- Vertical polygon edge at column `x`, spanning `y1 ≤ y2`. -/
structure VerticalEdge where
  x : Int
  y1 : Int
  y2 : Int
deriving DecidableEq, Repr

/-- Consecutive pairing of the source's `for (i = 0; …; i += 2)` loop: take
`(xs[0], xs[1]), (xs[2], xs[3]), …`, dropping a trailing unpaired element. -/
def pairUp : List Int → List Range
  | x1 :: x2 :: rest => ⟨x1, x2⟩ :: pairUp rest
  | _ => []

/-- Even-odd scanline coverage strictly between vertex rows: the x's of the
vertical edges whose open y-interval contains `y`, sorted ascending and paired
consecutively. -/
def getInteriorAtY (y : Half) (verticalEdges : List VerticalEdge) : List Range :=
  let crossingXs :=
    List.insertionSort (fun a b => a ≤ b)
      ((verticalEdges.filter fun e =>
          decide (Half.ofInt e.y1 < y) && decide (y < Half.ofInt e.y2)).map
        fun e => e.x)
  pairUp crossingXs

/-- Merge loop of `mergeRanges`: `cur` is the range currently sitting at the top
of the source's `merged` array; a new range either starts a fresh output entry
(`last.end < r.start`) or is folded into `cur` by extending its `end`. -/
def mergeLoop (cur : Range) : List Range → List Range
  | [] => [cur]
  | r :: rs =>
    if cur.stop < r.start then cur :: mergeLoop r rs
    else mergeLoop ⟨cur.start, max cur.stop r.stop⟩ rs

/-- Sort ranges by `start` (stable, as the source's comparator
`a.start - b.start`) and coalesce every overlapping or endpoint-sharing pair. -/
def mergeRanges (ranges : List Range) : List Range :=
  match List.insertionSort (fun a b => a.start ≤ b.start) ranges with
  | [] => []
  | r :: rs => mergeLoop r rs

/-- Coverage cache: association list standing for the source's
`Map<number, Range[]>`. -/
def Cache : Type :=
  List (Half × List Range)

/-- Coverage of row `y` as `getCoverageAtY` computes it on a cache miss:
on a vertex row, merge the interiors just above and just below with the
horizontal edges lying exactly on the row; off vertex rows, the even-odd
interior alone. -/
def computeCoverage (y : Half) (points : List Point)
    (verticalEdges : List VerticalEdge) (horizontalEdges : List HorizontalEdge) :
    List Range :=
  if points.any (fun p => Half.ofInt p.y == y) then
    mergeRanges
      (getInteriorAtY (y + eps) verticalEdges ++
        getInteriorAtY (y - eps) verticalEdges ++
        (horizontalEdges.filter fun e => Half.ofInt e.y == y).map
          fun e => ⟨e.x1, e.x2⟩)
  else getInteriorAtY y verticalEdges

/-- Memoised coverage query: return the cached set when present, otherwise
compute the coverage, store it under key `y` and return it together with the
extended cache. -/
def getCoverageAtY (y : Half) (points : List Point)
    (verticalEdges : List VerticalEdge) (horizontalEdges : List HorizontalEdge)
    (coverageCache : Cache) : List Range × Cache :=
  match List.lookup y coverageCache with
  | some cached => (cached, coverageCache)
  | none =>
    let coverage := computeCoverage y points verticalEdges horizontalEdges
    (coverage, (y, coverage) :: coverageCache)

/-- Binary-search loop of `lowerBound`.  The fuel argument only bounds the
iteration count (`hi - lo` shrinks every step, so `arr.length + 1` units never
run out); it stands for the source's unbounded `while (lo < hi)`. -/
def lowerBoundLoop (arr : List Half) (target : Half) : Nat → Nat → Nat → Nat
  | 0, lo, _ => lo
  | fuel + 1, lo, hi =>
    if lo < hi then
      let mid := (lo + hi) / 2
      if arr.getD mid ⟨0⟩ < target then lowerBoundLoop arr target fuel (mid + 1) hi
      else lowerBoundLoop arr target fuel lo mid
    else lo

/-- Index of the first element `≥ target` in a sorted array (or `arr.length`
when every element is smaller). -/
def lowerBound (arr : List Half) (target : Half) : Nat :=
  lowerBoundLoop arr target (arr.length + 1) 0 arr.length

/-- Validation loop of `isRectangleValid` over the remaining y-samples: stop
successfully at the first sample `> maxY` (or at the end), and fail at the
first sample whose coverage has no single range containing `[minX, maxX]`. -/
def validLoop (minX maxX : Int) (maxY : Half) (points : List Point)
    (verticalEdges : List VerticalEdge) (horizontalEdges : List HorizontalEdge) :
    List Half → Cache → Bool × Cache
  | [], cache => (true, cache)
  | y :: rest, cache =>
    if y ≤ maxY then
      let res := getCoverageAtY y points verticalEdges horizontalEdges cache
      if res.1.any fun r => decide (r.start ≤ minX) && decide (maxX ≤ r.stop)
      then validLoop minX maxX maxY points verticalEdges horizontalEdges rest res.2
      else (false, res.2)
    else (true, cache)

/-- Whether the axis-aligned rectangle with opposite corners `p1, p2` lies
inside the polygon: every precomputed y-sample in `[minY, maxY]` — located by a
lower-bound binary search and a forward scan — must have a single coverage
range containing `[minX, maxX]`. -/
def isRectangleValid (p1 p2 : Point) (ySamples : List Half) (points : List Point)
    (verticalEdges : List VerticalEdge) (horizontalEdges : List HorizontalEdge)
    (coverageCache : Cache) : Bool × Cache :=
  let minX := min p1.x p2.x
  let maxX := max p1.x p2.x
  let minY := min p1.y p2.y
  let maxY := max p1.y p2.y
  let startIdx := lowerBound ySamples (Half.ofInt minY)
  validLoop minX maxX (Half.ofInt maxY) points verticalEdges horizontalEdges
    (ySamples.drop startIdx) coverageCache

/-- Edge classification of `part2`'s first loop: each consecutive point pair
(including last→first) becomes a horizontal edge when the y's agree and a
vertical edge otherwise, with sorted endpoint coordinates. -/
def buildEdges (points : List Point) : List HorizontalEdge × List VerticalEdge :=
  let cyclePairs := points.zip (points.rotate 1)
  ((cyclePairs.filterMap fun pq =>
      if pq.1.y = pq.2.y then
        some ⟨pq.1.y, min pq.1.x pq.2.x, max pq.1.x pq.2.x⟩
      else none),
    (cyclePairs.filterMap fun pq =>
      if pq.1.y = pq.2.y then none
      else some ⟨pq.1.x, min pq.1.y pq.2.y, max pq.1.y pq.2.y⟩))

/-- Distinct vertex y-coordinates in ascending order
(`Array.from(new Set(…)).sort(…)`). -/
def uniqueY (points : List Point) : List Int :=
  List.insertionSort (fun a b => a ≤ b) (points.map fun p => p.y).dedup

/-- Interleave each vertex y with the midpoint to the next distinct vertex y,
exactly as `part2`'s `ySamples` loop pushes them. -/
def midpointsInterleave : List Int → List Half
  | [] => []
  | [y] => [Half.ofInt y]
  | y :: nextY :: rest =>
    Half.ofInt y :: Half.avgInt y nextY :: midpointsInterleave (nextY :: rest)

/-- The y-sample set of `part2`: every distinct vertex y plus the midpoint
between each pair of adjacent distinct vertex y's. -/
def ySamples (points : List Point) : List Half :=
  midpointsInterleave (uniqueY points)

/-- Part 2: maximum inclusive bounding-box area over all point pairs whose
rectangle is entirely contained in the polygon, threading the shared coverage
cache through the pair scan. -/
def part2 (points : List Point) : Nat :=
  let horizontalEdges := (buildEdges points).1
  let verticalEdges := (buildEdges points).2
  let samples := ySamples points
  ((pairsList points).foldl
      (fun (acc : Nat × Cache) pq =>
        let res := isRectangleValid pq.1 pq.2 samples points verticalEdges
            horizontalEdges acc.2
        if res.1 then
          let a := area pq.1 pq.2
          (if acc.1 < a then a else acc.1, res.2)
        else (acc.1, res.2))
      (0, ([] : Cache))).1

/-- The puzzle's example polygon. -/
def examplePoints : List Point :=
  [⟨7, 1⟩, ⟨11, 1⟩, ⟨11, 7⟩, ⟨9, 7⟩, ⟨9, 5⟩, ⟨2, 5⟩, ⟨2, 3⟩, ⟨7, 3⟩]

/-- A U-shaped rectilinear polygon: a base `[0,5] × [0,2]` carrying two towers
`[0,2] × [2,10]` and `[3,5] × [2,10]`, so that at interior rows the two
covered spans `[0,2]` and `[3,5]` touch at lattice distance 1. -/
def uPoints : List Point :=
  [⟨0, 0⟩, ⟨5, 0⟩, ⟨5, 10⟩, ⟨3, 10⟩, ⟨3, 2⟩, ⟨2, 2⟩, ⟨2, 10⟩, ⟨0, 10⟩]

/-- Ordering invariant that the code actually guarantees for every coverage
set: ascending `start`, and consecutive ranges never strictly overlap
(`prev.end ≤ next.start`). -/
abbrev RangesOrdered (rs : List Range) : Prop :=
  rs.Chain' fun a b => a.start ≤ b.start ∧ a.stop ≤ b.start

/-- The coverage-set invariant in the exact strength the specification claims
it: ascending `start`, and no two consecutive ranges with
`prev.end ≥ next.start - 1` (lattice-touching ranges merged as well). -/
abbrev SpecRangeInvariant (rs : List Range) : Prop :=
  rs.Chain' fun a b => a.start ≤ b.start ∧ a.stop < b.start - 1

/-- Membership of a real number in the union of the closed intervals of a
range list. -/
def inRanges (rs : List Range) (q : ℝ) : Prop :=
  ∃ r ∈ rs, (r.start : ℝ) ≤ q ∧ q ≤ (r.stop : ℝ)

instance : IsTotal Range fun a b => a.start ≤ b.start :=
  ⟨fun a b => le_total a.start b.start⟩

instance : IsTrans Range fun a b => a.start ≤ b.start :=
  ⟨fun _ _ _ hab hbc => le_trans hab hbc⟩

/-- Caches each of whose entries is the engine's own coverage for its key. -/
def CoherentCache (points : List Point) (ve : List VerticalEdge)
    (he : List HorizontalEdge) (cache : Cache) : Prop :=
  ∀ y c, List.lookup y cache = some c → c = computeCoverage y points ve he

instance : IsTrans Half (· < ·) :=
  ⟨fun _ _ _ h1 h2 => Int.lt_trans h1 h2⟩

instance : IsTrans Half (· ≤ ·) :=
  ⟨fun _ _ _ h1 h2 => Int.le_trans h1 h2⟩

/-- Cache-free rectangle validity at the specification level: every y-sample
inside the rectangle's vertical span has a coverage range containing its
horizontal span.  `isRectangleValid_spec` proves the engine equivalent to
this. -/
abbrev PureValid (p1 p2 : Point) (samples : List Half) (points : List Point)
    (ve : List VerticalEdge) (he : List HorizontalEdge) : Prop :=
  ∀ y ∈ samples, Half.ofInt (min p1.y p2.y) ≤ y →
    y ≤ Half.ofInt (max p1.y p2.y) →
    ∃ r ∈ computeCoverage y points ve he,
      r.start ≤ min p1.x p2.x ∧ max p1.x p2.x ≤ r.stop

theorem Half.toRat_injective : Function.Injective Half.toRat := by
  intro a b h
  have : (a.twice : ℚ) = b.twice := by
    field_simp [Half.toRat] at h
    exact_mod_cast h
  cases a; cases b; simp_all [Int.cast_injective.eq_iff]

theorem Half.toRat_le_toRat {a b : Half} : a.toRat ≤ b.toRat ↔ a ≤ b := by
  show (a.twice : ℚ) / 2 ≤ (b.twice : ℚ) / 2 ↔ a.twice ≤ b.twice
  rw [div_le_div_iff_of_pos_right (by norm_num : (0:ℚ) < 2)]
  exact_mod_cast Iff.rfl

theorem Half.toRat_lt_toRat {a b : Half} : a.toRat < b.toRat ↔ a < b := by
  show (a.twice : ℚ) / 2 < (b.twice : ℚ) / 2 ↔ a.twice < b.twice
  rw [div_lt_div_iff_of_pos_right (by norm_num : (0:ℚ) < 2)]
  exact_mod_cast Iff.rfl

theorem Half.toRat_ofInt (n : Int) : (Half.ofInt n).toRat = (n : ℚ) := by
  show ((2 * n : Int) : ℚ) / 2 = (n : ℚ)
  push_cast
  ring

theorem Half.toRat_avgInt (a b : Int) :
    (Half.avgInt a b).toRat = ((a : ℚ) + b) / 2 := by
  show ((a + b : Int) : ℚ) / 2 = ((a : ℚ) + b) / 2
  push_cast
  ring

theorem Half.toRat_add (a b : Half) : (a + b).toRat = a.toRat + b.toRat := by
  show ((a.twice + b.twice : Int) : ℚ) / 2 = (a.twice : ℚ) / 2 + (b.twice : ℚ) / 2
  push_cast
  ring

theorem Half.toRat_eps : eps.toRat = 1 / 2 := by
  simp [Half.toRat, eps]

theorem inRanges_nil (q : ℝ) : ¬ inRanges [] q := by
  simp [inRanges]

theorem inRanges_cons (a : Range) (l : List Range) (q : ℝ) :
    inRanges (a :: l) q ↔ ((a.start : ℝ) ≤ q ∧ q ≤ (a.stop : ℝ)) ∨ inRanges l q := by
  simp [inRanges, List.mem_cons, or_and_right, exists_or, exists_eq_left]

theorem inRanges_perm {l1 l2 : List Range} (h : l1.Perm l2) (q : ℝ) :
    inRanges l1 q ↔ inRanges l2 q := by
  constructor <;> rintro ⟨r, hr, hq⟩
  · exact ⟨r, h.subset hr, hq⟩
  · exact ⟨r, h.symm.subset hr, hq⟩

theorem mergeLoop_head : ∀ (l : List Range) (cur : Range),
    ∃ stop rest, mergeLoop cur l = ⟨cur.start, stop⟩ :: rest ∧ cur.stop ≤ stop
  | [], cur => ⟨cur.stop, [], rfl, le_rfl⟩
  | r :: rs, cur => by
    by_cases h : cur.stop < r.start
    · exact ⟨cur.stop, mergeLoop r rs, by simp [mergeLoop, h], le_rfl⟩
    · obtain ⟨stop, rest, heq, hle⟩ :=
        mergeLoop_head rs ⟨cur.start, max cur.stop r.stop⟩
      exact ⟨stop, rest, by simp [mergeLoop, h, heq],
        le_trans (le_max_left _ _) hle⟩

theorem mergeLoop_chain : ∀ (l : List Range) (cur : Range),
    (cur :: l).Chain' (fun a b => a.start ≤ b.start) →
    (mergeLoop cur l).Chain' fun a b => a.start ≤ b.start ∧ a.stop < b.start
  | [], cur, _ => by simp [mergeLoop]
  | r :: rs, cur, h => by
    rw [List.chain'_cons] at h
    obtain ⟨hcr, hrest⟩ := h
    by_cases hlt : cur.stop < r.start
    · have hunf : mergeLoop cur (r :: rs) = cur :: mergeLoop r rs := by
        simp [mergeLoop, hlt]
      rw [hunf, List.chain'_cons']
      obtain ⟨stop, rest, heq, _⟩ := mergeLoop_head rs r
      refine ⟨?_, mergeLoop_chain rs r hrest⟩
      intro b hb
      rw [heq] at hb
      simp only [List.head?_cons, Option.mem_def, Option.some.injEq] at hb
      subst hb
      exact ⟨hcr, hlt⟩
    · have hunf : mergeLoop cur (r :: rs) =
          mergeLoop ⟨cur.start, max cur.stop r.stop⟩ rs := by
        simp [mergeLoop, hlt]
      rw [hunf]
      apply mergeLoop_chain
      rw [List.chain'_cons'] at hrest ⊢
      exact ⟨fun b hb => le_trans hcr (hrest.1 b hb), hrest.2⟩

theorem interval_union_touch {a b c d : Int} (h1 : a ≤ c) (h2 : c ≤ b) (q : ℝ) :
    ((a : ℝ) ≤ q ∧ q ≤ ((max b d : Int) : ℝ)) ↔
      (((a : ℝ) ≤ q ∧ q ≤ (b : ℝ)) ∨ ((c : ℝ) ≤ q ∧ q ≤ (d : ℝ))) := by
  have h1' : (a : ℝ) ≤ (c : ℝ) := by exact_mod_cast h1
  have h2' : (c : ℝ) ≤ (b : ℝ) := by exact_mod_cast h2
  have hmax : ((max b d : Int) : ℝ) = max (b : ℝ) (d : ℝ) := by push_cast; rfl
  rw [hmax]
  constructor
  · rintro ⟨hq1, hq2⟩
    rcases le_or_lt q (b : ℝ) with hqb | hqb
    · exact Or.inl ⟨hq1, hqb⟩
    · rcases le_max_iff.mp hq2 with hq | hq
      · exact absurd hq (not_le.mpr hqb)
      · exact Or.inr ⟨by linarith, hq⟩
  · rintro (⟨hq1, hq2⟩ | ⟨hq1, hq2⟩)
    · exact ⟨hq1, le_max_of_le_left hq2⟩
    · exact ⟨by linarith, le_max_of_le_right hq2⟩

theorem mergeLoop_inRanges : ∀ (l : List Range) (cur : Range),
    (cur :: l).Chain' (fun a b => a.start ≤ b.start) → ∀ q : ℝ,
    (inRanges (mergeLoop cur l) q ↔ inRanges (cur :: l) q)
  | [], cur, _, q => Iff.rfl
  | r :: rs, cur, h, q => by
    rw [List.chain'_cons] at h
    obtain ⟨hcr, hrest⟩ := h
    by_cases hlt : cur.stop < r.start
    · have hunf : mergeLoop cur (r :: rs) = cur :: mergeLoop r rs := by
        simp [mergeLoop, hlt]
      rw [hunf, inRanges_cons, mergeLoop_inRanges rs r hrest q]
      simp only [inRanges_cons]
    · have hunf : mergeLoop cur (r :: rs) =
          mergeLoop ⟨cur.start, max cur.stop r.stop⟩ rs := by
        simp [mergeLoop, hlt]
      have hchain : ((⟨cur.start, max cur.stop r.stop⟩ : Range) :: rs).Chain'
          fun a b => a.start ≤ b.start := by
        rw [List.chain'_cons'] at hrest ⊢
        exact ⟨fun b hb => le_trans hcr (hrest.1 b hb), hrest.2⟩
      rw [hunf, mergeLoop_inRanges rs _ hchain q, inRanges_cons, inRanges_cons,
        inRanges_cons]
      rw [interval_union_touch hcr (not_lt.mp hlt) q]
      tauto

theorem sortRanges_sorted (l : List Range) :
    (List.insertionSort (fun a b => a.start ≤ b.start) l).Sorted
      fun a b => a.start ≤ b.start :=
  List.sorted_insertionSort _ l

theorem mergeRanges_chain (ranges : List Range) :
    (mergeRanges ranges).Chain' fun a b => a.start ≤ b.start ∧ a.stop < b.start := by
  unfold mergeRanges
  cases h : List.insertionSort (fun a b => a.start ≤ b.start) ranges with
  | nil => simp
  | cons r rs =>
    apply mergeLoop_chain
    have hs := sortRanges_sorted ranges
    rw [h] at hs
    exact hs.chain'

theorem mergeRanges_inRanges (ranges : List Range) (q : ℝ) :
    inRanges (mergeRanges ranges) q ↔ inRanges ranges q := by
  have hperm : (List.insertionSort (fun a b => a.start ≤ b.start) ranges).Perm
      ranges := List.perm_insertionSort _ _
  have hs := sortRanges_sorted ranges
  unfold mergeRanges
  cases h : List.insertionSort (fun a b => a.start ≤ b.start) ranges with
  | nil =>
    rw [h] at hperm
    rw [(List.nil_perm).mp hperm]
  | cons r rs =>
    rw [h] at hperm hs
    rw [mergeLoop_inRanges rs r hs.chain' q]
    exact inRanges_perm hperm q

theorem pairUp_ordered : ∀ xs : List Int, xs.Sorted (· ≤ ·) → RangesOrdered (pairUp xs)
  | [], _ => List.chain'_nil
  | [_], _ => List.chain'_nil
  | x1 :: x2 :: rest, h => by
    rw [List.sorted_cons] at h
    obtain ⟨h1, h2⟩ := h
    rw [List.sorted_cons] at h2
    obtain ⟨h2a, h2b⟩ := h2
    show List.Chain' _ ((⟨x1, x2⟩ : Range) :: pairUp rest)
    rw [List.chain'_cons']
    refine ⟨?_, pairUp_ordered rest h2b⟩
    intro b hb
    cases rest with
    | nil => simp [pairUp] at hb
    | cons x3 rest' =>
      cases rest' with
      | nil => simp [pairUp] at hb
      | cons x4 rest'' =>
        simp only [pairUp, List.head?_cons, Option.mem_def, Option.some.injEq] at hb
        subst hb
        exact ⟨h1 x3 (by simp), h2a x3 (by simp)⟩

theorem getInteriorAtY_ordered (y : Half) (ve : List VerticalEdge) :
    RangesOrdered (getInteriorAtY y ve) := by
  apply pairUp_ordered
  exact List.sorted_insertionSort _ _

theorem mergeRanges_ordered (ranges : List Range) :
    RangesOrdered (mergeRanges ranges) :=
  (mergeRanges_chain ranges).imp fun _ _ h => ⟨h.1, le_of_lt h.2⟩

theorem computeCoverage_ordered (y : Half) (points : List Point)
    (ve : List VerticalEdge) (he : List HorizontalEdge) :
    RangesOrdered (computeCoverage y points ve he) := by
  unfold computeCoverage
  split
  · exact mergeRanges_ordered _
  · exact getInteriorAtY_ordered _ _

theorem getCoverageAtY_hit {y : Half} {cache : Cache} {c : List Range}
    (points : List Point) (ve : List VerticalEdge) (he : List HorizontalEdge)
    (h : List.lookup y cache = some c) :
    getCoverageAtY y points ve he cache = (c, cache) := by
  unfold getCoverageAtY
  rw [h]

theorem getCoverageAtY_miss {y : Half} {cache : Cache} (points : List Point)
    (ve : List VerticalEdge) (he : List HorizontalEdge)
    (h : List.lookup y cache = none) :
    getCoverageAtY y points ve he cache =
      (computeCoverage y points ve he,
        (y, computeCoverage y points ve he) :: cache) := by
  unfold getCoverageAtY
  rw [h]

theorem coherent_nil (points : List Point) (ve : List VerticalEdge)
    (he : List HorizontalEdge) : CoherentCache points ve he [] := by
  intro y c h
  simp [List.lookup] at h

theorem getCoverageAtY_coherent {points : List Point} {ve : List VerticalEdge}
    {he : List HorizontalEdge} {cache : Cache} (y : Half)
    (hc : CoherentCache points ve he cache) :
    (getCoverageAtY y points ve he cache).1 = computeCoverage y points ve he ∧
      CoherentCache points ve he (getCoverageAtY y points ve he cache).2 := by
  cases h : List.lookup y cache with
  | some c =>
    rw [getCoverageAtY_hit points ve he h]
    exact ⟨hc y c h, hc⟩
  | none =>
    rw [getCoverageAtY_miss points ve he h]
    refine ⟨rfl, fun y0 c0 h0 => ?_⟩
    by_cases hy : y0 = y
    · subst hy
      simp only [List.lookup_cons, beq_self_eq_true] at h0
      cases h0
      rfl
    · have hb : (y0 == y) = false := beq_eq_false_iff_ne.mpr hy
      rw [List.lookup_cons, hb] at h0
      exact hc y0 c0 h0

set_option maxRecDepth 100000

/-- C1: on the puzzle's example polygon `(7,1),(11,1),(11,7),(9,7),(9,5),
(2,5),(2,3),(7,3)`, the unconstrained pairwise search returns 50 and the
polygon-constrained search returns 24. -/
theorem c1_example_end_to_end :
    part1 examplePoints = 50 ∧ part2 examplePoints = 24 :=
  ⟨by decide, by decide⟩

/-- C2, counterexample: at row `y = 5` of the U-shaped polygon `uPoints` the
engine returns the coverage `[[0,2], [3,5]]`, whose consecutive ranges satisfy
`range[0].end = 2 ≥ range[1].start - 1 = 2`: ranges touching at lattice
distance 1 are not merged, so the claimed invariant fails on a returned set. -/
theorem c2_spec_invariant_counterexample :
    (getCoverageAtY (Half.ofInt 5) uPoints (buildEdges uPoints).2
        (buildEdges uPoints).1 []).1 = [⟨0, 2⟩, ⟨3, 5⟩] ∧
      ¬ SpecRangeInvariant (getCoverageAtY (Half.ofInt 5) uPoints
        (buildEdges uPoints).2 (buildEdges uPoints).1 []).1 := by
  have hcov : (getCoverageAtY (Half.ofInt 5) uPoints (buildEdges uPoints).2
      (buildEdges uPoints).1 []).1 = [⟨0, 2⟩, ⟨3, 5⟩] := by decide
  refine ⟨hcov, fun h => ?_⟩
  rw [hcov, SpecRangeInvariant, List.chain'_cons] at h
  exact absurd h.1.2 (by decide)

/-- C2, amended: provided every cached set satisfies the invariant the engine
itself guarantees, every coverage set `getCoverageAtY` returns is sorted
ascending by `start` and consecutive ranges never strictly overlap
(`range[i].end ≤ range[i+1].start`); ranges touching at lattice distance 1
remain unmerged. -/
theorem c2_coverage_ranges_ordered (y : Half) (points : List Point)
    (ve : List VerticalEdge) (he : List HorizontalEdge) (cache : Cache)
    (hc : ∀ y0 c, List.lookup y0 cache = some c → RangesOrdered c) :
    RangesOrdered (getCoverageAtY y points ve he cache).1 := by
  cases h : List.lookup y cache with
  | some c =>
    rw [getCoverageAtY_hit points ve he h]
    exact hc y c h
  | none =>
    rw [getCoverageAtY_miss points ve he h]
    exact computeCoverage_ordered y points ve he

/-- C2 witness: the amended invariant at a concrete query on the U-polygon. -/
theorem c2_coverage_ranges_ordered_witness :
    RangesOrdered (getCoverageAtY (Half.ofInt 5) uPoints (buildEdges uPoints).2
      (buildEdges uPoints).1 []).1 :=
  c2_coverage_ranges_ordered (Half.ofInt 5) uPoints (buildEdges uPoints).2
    (buildEdges uPoints).1 [] (by intro y0 c h; simp [List.lookup] at h)

/-- C10: for inputs whose every range satisfies `start ≤ end`, `mergeRanges`
returns a list sorted ascending by `start` whose consecutive ranges satisfy
`prev.end < next.start`, and the union of the closed real intervals of the
output equals that of the input. -/
theorem c10_mergeRanges_correct (ranges : List Range)
    (h : ∀ r ∈ ranges, r.start ≤ r.stop) :
    ((mergeRanges ranges).Chain' fun a b => a.start ≤ b.start) ∧
      ((mergeRanges ranges).Chain' fun a b => a.stop < b.start) ∧
      ∀ q : ℝ, inRanges (mergeRanges ranges) q ↔ inRanges ranges q :=
  ⟨(mergeRanges_chain ranges).imp fun _ _ hab => hab.1,
    (mergeRanges_chain ranges).imp fun _ _ hab => hab.2,
    mergeRanges_inRanges ranges⟩

/-- C10 witness: a concrete input with overlapping, touching and separated
ranges. -/
theorem c10_mergeRanges_correct_witness :
    (∀ r ∈ [(⟨1, 3⟩ : Range), ⟨2, 5⟩, ⟨7, 8⟩], r.start ≤ r.stop) ∧
      (((mergeRanges [(⟨1, 3⟩ : Range), ⟨2, 5⟩, ⟨7, 8⟩]).Chain'
          fun a b => a.start ≤ b.start) ∧
        ((mergeRanges [(⟨1, 3⟩ : Range), ⟨2, 5⟩, ⟨7, 8⟩]).Chain'
          fun a b => a.stop < b.start) ∧
        ∀ q : ℝ, inRanges (mergeRanges [(⟨1, 3⟩ : Range), ⟨2, 5⟩, ⟨7, 8⟩]) q ↔
          inRanges [(⟨1, 3⟩ : Range), ⟨2, 5⟩, ⟨7, 8⟩] q) :=
  ⟨by decide, c10_mergeRanges_correct _ (by decide)⟩

/-- C8: the engine stores the computed coverage in the cache under key `y`
before returning it; a second query for the same `y` returns exactly the
stored set and leaves the cache unchanged; and the cache is append-only: every
entry present before a query is present, unchanged, afterwards. -/
theorem c8_cache_append_only (y : Half) (points : List Point)
    (ve : List VerticalEdge) (he : List HorizontalEdge) (cache : Cache) :
    List.lookup y (getCoverageAtY y points ve he cache).2 =
        some (getCoverageAtY y points ve he cache).1 ∧
      getCoverageAtY y points ve he (getCoverageAtY y points ve he cache).2 =
        ((getCoverageAtY y points ve he cache).1,
          (getCoverageAtY y points ve he cache).2) ∧
      ∀ k v, List.lookup k cache = some v →
        List.lookup k (getCoverageAtY y points ve he cache).2 = some v := by
  have hlookup : List.lookup y (getCoverageAtY y points ve he cache).2 =
      some (getCoverageAtY y points ve he cache).1 := by
    cases h : List.lookup y cache with
    | some c =>
      rw [getCoverageAtY_hit points ve he h]
      exact h
    | none =>
      rw [getCoverageAtY_miss points ve he h]
      simp [List.lookup_cons]
  refine ⟨hlookup, ?_, ?_⟩
  · rw [getCoverageAtY_hit points ve he hlookup]
  · intro k v hk
    cases h : List.lookup y cache with
    | some c =>
      rw [getCoverageAtY_hit points ve he h]
      exact hk
    | none =>
      rw [getCoverageAtY_miss points ve he h]
      have hne : (k == y) = false := by
        apply beq_eq_false_iff_ne.mpr
        intro hky
        rw [hky, h] at hk
        cases hk
      rw [List.lookup_cons, hne]
      exact hk

theorem Half.lt_def {a b : Half} : a < b ↔ a.twice < b.twice :=
  Iff.rfl

theorem Half.le_def {a b : Half} : a ≤ b ↔ a.twice ≤ b.twice :=
  Iff.rfl

theorem uniqueY_sorted (points : List Point) :
    (uniqueY points).Sorted (· < ·) := by
  have hle : (uniqueY points).Sorted (· ≤ ·) :=
    List.sorted_insertionSort _ _
  have hnd : (uniqueY points).Nodup :=
    ((List.perm_insertionSort _ _).nodup_iff).mpr (List.nodup_dedup _)
  exact (List.Pairwise.and hle hnd).imp fun h => lt_of_le_of_ne h.1 h.2

theorem uniqueY_mem (points : List Point) (n : Int) :
    n ∈ uniqueY points ↔ ∃ p ∈ points, p.y = n := by
  unfold uniqueY
  rw [(List.perm_insertionSort _ _).mem_iff, List.mem_dedup, List.mem_map]

theorem midpointsInterleave_head (y : Int) (rest : List Int) :
    ∃ t, midpointsInterleave (y :: rest) = Half.ofInt y :: t := by
  cases rest with
  | nil => exact ⟨[], rfl⟩
  | cons y2 r => exact ⟨Half.avgInt y y2 :: midpointsInterleave (y2 :: r), rfl⟩

theorem midpointsInterleave_chain : ∀ l : List Int, l.Sorted (· < ·) →
    (midpointsInterleave l).Chain' (· < ·)
  | [], _ => List.chain'_nil
  | [_], _ => List.chain'_singleton _
  | y :: y2 :: rest, h => by
    rw [List.sorted_cons] at h
    obtain ⟨h1, h2⟩ := h
    have hy : y < y2 := h1 y2 (by simp)
    obtain ⟨t, ht⟩ := midpointsInterleave_head y2 rest
    show List.Chain' (· < ·)
      (Half.ofInt y :: Half.avgInt y y2 :: midpointsInterleave (y2 :: rest))
    rw [ht, List.chain'_cons, List.chain'_cons]
    refine ⟨?_, ?_, ?_⟩
    · show 2 * y < y + y2
      omega
    · show y + y2 < 2 * y2
      omega
    · rw [← ht]
      exact midpointsInterleave_chain (y2 :: rest) h2

theorem midpointsInterleave_mem : ∀ (l : List Int) (s : Half),
    s ∈ midpointsInterleave l ↔
      (s ∈ l.map Half.ofInt ∨
        s ∈ (l.zip l.tail).map fun ab => Half.avgInt ab.1 ab.2)
  | [], s => by simp [midpointsInterleave]
  | [y], s => by simp [midpointsInterleave]
  | y :: y2 :: rest, s => by
    have ih := midpointsInterleave_mem (y2 :: rest) s
    simp only [List.tail_cons] at ih ⊢
    show s ∈ Half.ofInt y :: Half.avgInt y y2 :: midpointsInterleave (y2 :: rest) ↔ _
    rw [List.mem_cons, List.mem_cons, ih]
    simp only [List.map_cons, List.zip_cons_cons, List.mem_cons]
    tauto

/-- C6: the y-sample list built by `part2` is strictly increasing, and consists
of exactly the distinct vertex y's (themselves sorted and characterised as the
y-coordinates occurring among the points) together with the arithmetic midpoint
of every pair of adjacent distinct vertex y's. -/
theorem c6_ysamples_structure (points : List Point) :
    (ySamples points).Chain' (· < ·) ∧
      ((uniqueY points).Sorted (· < ·) ∧
        ∀ n : Int, n ∈ uniqueY points ↔ ∃ p ∈ points, p.y = n) ∧
      ∀ s : Half, s ∈ ySamples points ↔
        (s ∈ (uniqueY points).map Half.ofInt ∨
          s ∈ ((uniqueY points).zip (uniqueY points).tail).map
            fun ab => Half.avgInt ab.1 ab.2) :=
  ⟨midpointsInterleave_chain _ (uniqueY_sorted points),
    ⟨uniqueY_sorted points, uniqueY_mem points⟩,
    fun s => midpointsInterleave_mem _ s⟩

theorem pairUp_length : ∀ xs : List Int, (pairUp xs).length = xs.length / 2
  | [] => rfl
  | [_] => by
    show (0 : Nat) = 1 / 2
    omega
  | _ :: _ :: rest => by
    simp only [pairUp, List.length_cons, pairUp_length rest]
    omega

theorem pairUp_getD : ∀ (xs : List Int) (k : Nat), 2 * k + 1 < xs.length →
    (pairUp xs).getD k ⟨0, 0⟩ = ⟨xs.getD (2 * k) 0, xs.getD (2 * k + 1) 0⟩
  | [], _, h => by simp at h
  | [_], _, h => by
    simp only [List.length_singleton] at h
    omega
  | _ :: _ :: _, 0, _ => rfl
  | x1 :: x2 :: rest, k + 1, h => by
    have h' : 2 * k + 1 < rest.length := by
      simp only [List.length_cons] at h
      omega
    have e1 : 2 * (k + 1) = 2 * k + 1 + 1 := by omega
    rw [e1]
    show (pairUp rest).getD k ⟨0, 0⟩ = _
    rw [pairUp_getD rest k h']
    rfl

/-- C4: at a vertex row (an uncached `y` equal to some vertex's y-coordinate),
the returned coverage is exactly the merge of three range lists: the interior
just above (`y + 0.5`), the interior just below (`y - 0.5`), and one span per
horizontal edge lying exactly at `y`. -/
theorem c4_vertex_row_coverage (y : Half) (points : List Point)
    (ve : List VerticalEdge) (he : List HorizontalEdge) (cache : Cache)
    (hmiss : List.lookup y cache = none)
    (hvertex : ∃ p ∈ points, Half.ofInt p.y = y) :
    (getCoverageAtY y points ve he cache).1 =
      mergeRanges
        (getInteriorAtY (y + eps) ve ++ getInteriorAtY (y - eps) ve ++
          (he.filter fun e => Half.ofInt e.y == y).map fun e => ⟨e.x1, e.x2⟩) := by
  have hany : (points.any fun p => Half.ofInt p.y == y) = true := by
    rw [List.any_eq_true]
    obtain ⟨p, hp, hpy⟩ := hvertex
    exact ⟨p, hp, beq_iff_eq.mpr hpy⟩
  rw [getCoverageAtY_miss points ve he hmiss]
  show computeCoverage y points ve he = _
  unfold computeCoverage
  rw [if_pos hany]

/-- C4 witness: the vertex row `y = 1` of the example polygon. -/
theorem c4_vertex_row_coverage_witness :
    (getCoverageAtY (Half.ofInt 1) examplePoints (buildEdges examplePoints).2
        (buildEdges examplePoints).1 []).1 =
      mergeRanges
        (getInteriorAtY (Half.ofInt 1 + eps) (buildEdges examplePoints).2 ++
          getInteriorAtY (Half.ofInt 1 - eps) (buildEdges examplePoints).2 ++
          ((buildEdges examplePoints).1.filter fun e =>
            Half.ofInt e.y == Half.ofInt 1).map fun e => ⟨e.x1, e.x2⟩) :=
  c4_vertex_row_coverage (Half.ofInt 1) examplePoints (buildEdges examplePoints).2
    (buildEdges examplePoints).1 [] (by decide) ⟨⟨7, 1⟩, by decide, rfl⟩

/-- C5: off vertex rows (an uncached `y` equal to no vertex's y-coordinate),
the returned coverage is computed from the vertical edges alone: the x of every
edge whose open interval `(y1, y2)` strictly contains `y`, sorted ascending and
paired consecutively; pairing takes `(xs[0],xs[1]), (xs[2],xs[3]), …`, dropping
a trailing unpaired crossing. -/
theorem c5_offvertex_row_coverage (y : Half) (points : List Point)
    (ve : List VerticalEdge) (he : List HorizontalEdge) (cache : Cache)
    (hmiss : List.lookup y cache = none)
    (hnov : ∀ p ∈ points, Half.ofInt p.y ≠ y) :
    ((getCoverageAtY y points ve he cache).1 =
        pairUp (List.insertionSort (fun a b => a ≤ b)
          ((ve.filter fun e =>
              decide (Half.ofInt e.y1 < y) && decide (y < Half.ofInt e.y2)).map
            fun e => e.x))) ∧
      (∀ xs : List Int, (pairUp xs).length = xs.length / 2) ∧
      ∀ (xs : List Int) (k : Nat), 2 * k + 1 < xs.length →
        (pairUp xs).getD k ⟨0, 0⟩ = ⟨xs.getD (2 * k) 0, xs.getD (2 * k + 1) 0⟩ := by
  refine ⟨?_, pairUp_length, pairUp_getD⟩
  have hany : (points.any fun p => Half.ofInt p.y == y) = false := by
    rw [List.any_eq_false]
    intro p hp
    simp only [Bool.not_eq_true, beq_eq_false_iff_ne]
    exact hnov p hp
  rw [getCoverageAtY_miss points ve he hmiss]
  show computeCoverage y points ve he = _
  unfold computeCoverage
  rw [if_neg (by simp [hany])]
  rfl

/-- C5 witness: the off-vertex row `y = 5` of the U-polygon. -/
theorem c5_offvertex_row_coverage_witness :
    (getCoverageAtY (Half.ofInt 5) uPoints (buildEdges uPoints).2
        (buildEdges uPoints).1 []).1 =
      pairUp (List.insertionSort (fun a b => a ≤ b)
        (((buildEdges uPoints).2.filter fun e =>
            decide (Half.ofInt e.y1 < Half.ofInt 5) &&
              decide (Half.ofInt 5 < Half.ofInt e.y2)).map fun e => e.x)) :=
  (c5_offvertex_row_coverage (Half.ofInt 5) uPoints (buildEdges uPoints).2
    (buildEdges uPoints).1 [] (by decide) (by decide)).1

/-- C8 witness: a run over a cache holding an unrelated entry keeps that entry
intact. -/
theorem c8_cache_append_only_witness :
    List.lookup (Half.ofInt 0)
        (getCoverageAtY (Half.ofInt 5) uPoints (buildEdges uPoints).2
          (buildEdges uPoints).1 [(Half.ofInt 0, [⟨0, 5⟩])]).2 =
      some [⟨0, 5⟩] :=
  (c8_cache_append_only (Half.ofInt 5) uPoints (buildEdges uPoints).2
      (buildEdges uPoints).1 [(Half.ofInt 0, [⟨0, 5⟩])]).2.2
    (Half.ofInt 0) [⟨0, 5⟩] (by decide)

theorem Half.not_lt {a b : Half} : ¬ a < b ↔ b ≤ a := by
  rw [Half.lt_def, Half.le_def]
  omega

theorem Half.le_refl (a : Half) : a ≤ a := by
  rw [Half.le_def]

theorem Half.le_trans {a b c : Half} (h1 : a ≤ b) (h2 : b ≤ c) : a ≤ c := by
  rw [Half.le_def] at *
  omega

theorem sorted_getElem_le {arr : List Half} (h : arr.Sorted (· ≤ ·))
    {k m : Nat} (hk : k < arr.length) (hm : m < arr.length) (hkm : k ≤ m) :
    arr[k] ≤ arr[m] := by
  rcases Nat.eq_or_lt_of_le hkm with heq | hlt
  · subst heq
    exact Half.le_refl _
  · exact List.pairwise_iff_getElem.mp h k m hk hm hlt

theorem lowerBoundLoop_succ_lt (arr : List Half) (target : Half)
    (fuel lo hi : Nat) (h : lo < hi) :
    lowerBoundLoop arr target (fuel + 1) lo hi =
      if arr.getD ((lo + hi) / 2) ⟨0⟩ < target
      then lowerBoundLoop arr target fuel ((lo + hi) / 2 + 1) hi
      else lowerBoundLoop arr target fuel lo ((lo + hi) / 2) := by
  rw [lowerBoundLoop, if_pos h]

theorem lowerBoundLoop_spec (arr : List Half) (target : Half)
    (hsorted : arr.Sorted (· ≤ ·)) :
    ∀ (fuel lo hi : Nat), hi ≤ arr.length → lo ≤ hi → hi - lo ≤ fuel →
      (∀ k (hk : k < arr.length), k < lo → arr[k] < target) →
      (∀ k (hk : k < arr.length), hi ≤ k → ¬ arr[k] < target) →
      lo ≤ lowerBoundLoop arr target fuel lo hi ∧
        lowerBoundLoop arr target fuel lo hi ≤ hi ∧
        (∀ k (hk : k < arr.length),
          k < lowerBoundLoop arr target fuel lo hi → arr[k] < target) ∧
        (∀ k (hk : k < arr.length),
          lowerBoundLoop arr target fuel lo hi ≤ k → ¬ arr[k] < target)
  | 0, lo, hi, _, hlohi, hfuel, hlow, hhigh => by
    have heq : lo = hi := by omega
    subst heq
    exact ⟨le_rfl, le_rfl, hlow, hhigh⟩
  | fuel + 1, lo, hi, hhi, hlohi, hfuel, hlow, hhigh => by
    by_cases hlh : lo < hi
    · have hmid1 : lo ≤ (lo + hi) / 2 := by omega
      have hmid2 : (lo + hi) / 2 < hi := by omega
      have hmidlen : (lo + hi) / 2 < arr.length := lt_of_lt_of_le hmid2 hhi
      rw [lowerBoundLoop_succ_lt arr target fuel lo hi hlh,
        List.getD_eq_getElem arr ⟨0⟩ hmidlen]
      by_cases hc : arr[(lo + hi) / 2] < target
      · rw [if_pos hc]
        have hres := lowerBoundLoop_spec arr target hsorted fuel
          ((lo + hi) / 2 + 1) hi hhi (by omega) (by omega) ?_ hhigh
        · exact ⟨le_trans (by omega) hres.1, hres.2.1, hres.2.2⟩
        · intro k hk hklt
          have hle : arr[k] ≤ arr[(lo + hi) / 2] :=
            sorted_getElem_le hsorted hk hmidlen (by omega)
          rw [Half.le_def] at hle
          rw [Half.lt_def] at hc ⊢
          omega
      · rw [if_neg hc]
        have hres := lowerBoundLoop_spec arr target hsorted fuel lo ((lo + hi) / 2)
          (le_of_lt hmidlen) (by omega) (by omega) hlow ?_
        · exact ⟨hres.1, le_trans hres.2.1 (le_of_lt hmid2), hres.2.2⟩
        · intro k hk hge hklt
          apply hc
          have hle : arr[(lo + hi) / 2] ≤ arr[k] :=
            sorted_getElem_le hsorted hmidlen hk hge
          rw [Half.le_def] at hle
          rw [Half.lt_def] at hklt ⊢
          omega
    · rw [lowerBoundLoop, if_neg hlh]
      have heq : lo = hi := by omega
      subst heq
      exact ⟨le_rfl, le_rfl, hlow, hhigh⟩

theorem lowerBound_spec (arr : List Half) (target : Half)
    (hsorted : arr.Sorted (· ≤ ·)) :
    lowerBound arr target ≤ arr.length ∧
      (∀ k (hk : k < arr.length),
        k < lowerBound arr target → arr[k] < target) ∧
      ∀ k (hk : k < arr.length),
        lowerBound arr target ≤ k → ¬ arr[k] < target := by
  have h := lowerBoundLoop_spec arr target hsorted (arr.length + 1) 0 arr.length
    le_rfl (Nat.zero_le _) (by omega)
    (by intro k hk h0; omega)
    (by intro k hk hge; omega)
  exact ⟨h.2.1, h.2.2.1, h.2.2.2⟩

theorem validLoop_spec (minX maxX : Int) (maxY : Half) (points : List Point)
    (ve : List VerticalEdge) (he : List HorizontalEdge) :
    ∀ (ys : List Half) (cache : Cache), ys.Sorted (· ≤ ·) →
      CoherentCache points ve he cache →
      CoherentCache points ve he
          (validLoop minX maxX maxY points ve he ys cache).2 ∧
        ((validLoop minX maxX maxY points ve he ys cache).1 = true ↔
          ∀ y ∈ ys, y ≤ maxY →
            ∃ r ∈ computeCoverage y points ve he,
              r.start ≤ minX ∧ maxX ≤ r.stop)
  | [], cache, _, hc => ⟨hc, by simp [validLoop]⟩
  | y :: rest, cache, hsorted, hc => by
    rw [List.sorted_cons] at hsorted
    obtain ⟨hy, hrest⟩ := hsorted
    obtain ⟨hcfst, hccoh⟩ := getCoverageAtY_coherent y hc
    by_cases hmax : y ≤ maxY
    · have hunf : validLoop minX maxX maxY points ve he (y :: rest) cache =
          if (getCoverageAtY y points ve he cache).1.any
              (fun r => decide (r.start ≤ minX) && decide (maxX ≤ r.stop))
          then validLoop minX maxX maxY points ve he rest
            (getCoverageAtY y points ve he cache).2
          else (false, (getCoverageAtY y points ve he cache).2) := by
        rw [validLoop, if_pos hmax]
      by_cases hcov : (getCoverageAtY y points ve he cache).1.any
          (fun r => decide (r.start ≤ minX) && decide (maxX ≤ r.stop)) = true
      · rw [hunf, if_pos hcov]
        obtain ⟨ihcoh, ihiff⟩ := validLoop_spec minX maxX maxY points ve he rest
          (getCoverageAtY y points ve he cache).2 hrest hccoh
        refine ⟨ihcoh, ?_⟩
        rw [ihiff, List.forall_mem_cons]
        have hhead : y ≤ maxY →
            ∃ r ∈ computeCoverage y points ve he,
              r.start ≤ minX ∧ maxX ≤ r.stop := by
          intro _
          rw [hcfst] at hcov
          obtain ⟨r, hr, hrb⟩ := List.any_eq_true.mp hcov
          rw [Bool.and_eq_true, decide_eq_true_eq, decide_eq_true_eq] at hrb
          exact ⟨r, hr, hrb⟩
        constructor
        · intro hall
          exact ⟨hhead, hall⟩
        · intro hall
          exact hall.2
      · rw [hunf, if_neg hcov]
        refine ⟨hccoh, ?_⟩
        constructor
        · intro hfalse
          cases hfalse
        · intro hall
          exfalso
          apply hcov
          obtain ⟨r, hr, hr1, hr2⟩ := hall y (by simp) hmax
          rw [hcfst, List.any_eq_true]
          refine ⟨r, hr, ?_⟩
          rw [Bool.and_eq_true, decide_eq_true_eq, decide_eq_true_eq]
          exact ⟨hr1, hr2⟩
    · have hunf : validLoop minX maxX maxY points ve he (y :: rest) cache =
          (true, cache) := by
        rw [validLoop, if_neg hmax]
      rw [hunf]
      refine ⟨hc, ?_⟩
      constructor
      · intro _ y0 hy0 hy0max
        exfalso
        rcases List.mem_cons.mp hy0 with rfl | hy0rest
        · exact hmax hy0max
        · exact hmax (Half.le_trans (hy y0 hy0rest) hy0max)
      · intro _
        rfl

theorem isRectangleValid_spec (p1 p2 : Point) (samples : List Half)
    (points : List Point) (ve : List VerticalEdge) (he : List HorizontalEdge)
    (cache : Cache) (hsorted : samples.Sorted (· ≤ ·))
    (hc : CoherentCache points ve he cache) :
    CoherentCache points ve he
        (isRectangleValid p1 p2 samples points ve he cache).2 ∧
      ((isRectangleValid p1 p2 samples points ve he cache).1 = true ↔
        ∀ y ∈ samples, Half.ofInt (min p1.y p2.y) ≤ y →
          y ≤ Half.ofInt (max p1.y p2.y) →
          ∃ r ∈ computeCoverage y points ve he,
            r.start ≤ min p1.x p2.x ∧ max p1.x p2.x ≤ r.stop) := by
  have hdropsorted : (samples.drop
      (lowerBound samples (Half.ofInt (min p1.y p2.y)))).Sorted (· ≤ ·) :=
    List.Pairwise.sublist (List.drop_sublist _ _) hsorted
  obtain ⟨hcoh, hiff⟩ := validLoop_spec (min p1.x p2.x) (max p1.x p2.x)
    (Half.ofInt (max p1.y p2.y)) points ve he
    (samples.drop (lowerBound samples (Half.ofInt (min p1.y p2.y)))) cache
    hdropsorted hc
  obtain ⟨hlb_le, hlb_lt, hlb_ge⟩ :=
    lowerBound_spec samples (Half.ofInt (min p1.y p2.y)) hsorted
  refine ⟨hcoh, ?_⟩
  rw [show (isRectangleValid p1 p2 samples points ve he cache).1 =
      (validLoop (min p1.x p2.x) (max p1.x p2.x) (Half.ofInt (max p1.y p2.y))
        points ve he
        (samples.drop (lowerBound samples (Half.ofInt (min p1.y p2.y))))
        cache).1 from rfl]
  rw [hiff]
  constructor
  · intro hall y hy hymin hymax
    obtain ⟨i, hi, hieq⟩ := List.mem_iff_getElem.mp hy
    have hige : lowerBound samples (Half.ofInt (min p1.y p2.y)) ≤ i := by
      by_contra hilt
      have hlt := hlb_lt i hi (by omega)
      rw [hieq] at hlt
      exact (Half.not_lt.mpr hymin) hlt
    have hidx : i - lowerBound samples (Half.ofInt (min p1.y p2.y)) <
        (samples.drop (lowerBound samples (Half.ofInt (min p1.y p2.y)))).length := by
      rw [List.length_drop]
      omega
    have hmem : y ∈
        samples.drop (lowerBound samples (Half.ofInt (min p1.y p2.y))) := by
      rw [List.mem_iff_getElem]
      refine ⟨i - lowerBound samples (Half.ofInt (min p1.y p2.y)), hidx, ?_⟩
      rw [List.getElem_drop]
      simp only [show lowerBound samples (Half.ofInt (min p1.y p2.y)) +
        (i - lowerBound samples (Half.ofInt (min p1.y p2.y))) = i from by omega]
      exact hieq
    exact hall y hmem hymax
  · intro hall y hy hymax
    have hysamples : y ∈ samples := List.mem_of_mem_drop hy
    obtain ⟨j, hj, hjeq⟩ := List.mem_iff_getElem.mp hy
    have hjlen : lowerBound samples (Half.ofInt (min p1.y p2.y)) + j <
        samples.length := by
      rw [List.length_drop] at hj
      omega
    have hyeq : y =
        samples[lowerBound samples (Half.ofInt (min p1.y p2.y)) + j] := by
      rw [← hjeq, List.getElem_drop]
    have hnl := hlb_ge (lowerBound samples (Half.ofInt (min p1.y p2.y)) + j)
      hjlen (by omega)
    rw [← hyeq] at hnl
    exact hall y hysamples (Half.not_lt.mp hnl) hymax

/-- C3: with a sorted sample list and a cache whose entries are the engine's
own coverages, `isRectangleValid` returns true iff every sample `s` with
`min(p1.y,p2.y) ≤ s ≤ max(p1.y,p2.y)` has a coverage set in which one single
range contains `[minX, maxX]`; moreover the forward scan starts at
`lowerBound samples minY`, the least index holding a sample `≥ minY`. -/
theorem c3_isRectangleValid_iff (p1 p2 : Point) (samples : List Half)
    (points : List Point) (ve : List VerticalEdge) (he : List HorizontalEdge)
    (cache : Cache) (hsorted : samples.Sorted (· ≤ ·))
    (hc : CoherentCache points ve he cache) :
    ((isRectangleValid p1 p2 samples points ve he cache).1 = true ↔
        ∀ y ∈ samples, Half.ofInt (min p1.y p2.y) ≤ y →
          y ≤ Half.ofInt (max p1.y p2.y) →
          ∃ r ∈ computeCoverage y points ve he,
            r.start ≤ min p1.x p2.x ∧ max p1.x p2.x ≤ r.stop) ∧
      lowerBound samples (Half.ofInt (min p1.y p2.y)) ≤ samples.length ∧
      ∀ k (hk : k < samples.length),
        (k < lowerBound samples (Half.ofInt (min p1.y p2.y)) ↔
          samples[k] < Half.ofInt (min p1.y p2.y)) := by
  obtain ⟨hlb_le, hlb_lt, hlb_ge⟩ :=
    lowerBound_spec samples (Half.ofInt (min p1.y p2.y)) hsorted
  refine ⟨(isRectangleValid_spec p1 p2 samples points ve he cache hsorted hc).2,
    hlb_le, ?_⟩
  intro k hk
  constructor
  · exact hlb_lt k hk
  · intro hlt
    by_contra hge
    exact hlb_ge k hk (by omega) hlt

/-- C3 witness: a concrete sorted two-sample list, corner pair and empty
cache. -/
theorem c3_isRectangleValid_iff_witness :
    lowerBound [Half.ofInt 1, Half.ofInt 2]
        (Half.ofInt (min (⟨7, 1⟩ : Point).y (⟨11, 2⟩ : Point).y)) ≤
      ([Half.ofInt 1, Half.ofInt 2] : List Half).length :=
  (c3_isRectangleValid_iff ⟨7, 1⟩ ⟨11, 2⟩ [Half.ofInt 1, Half.ofInt 2]
    examplePoints (buildEdges examplePoints).2 (buildEdges examplePoints).1 []
    (by
      rw [List.sorted_cons]
      refine ⟨?_, List.sorted_singleton _⟩
      intro b hb
      rw [List.mem_singleton] at hb
      subst hb
      decide)
    (coherent_nil _ _ _)).2.1

theorem foldl_valid_le (samples : List Half) (points : List Point)
    (ve : List VerticalEdge) (he : List HorizontalEdge) :
    ∀ (l : List (Point × Point)) (m2 m1 : Nat) (cache : Cache), m2 ≤ m1 →
      (l.foldl (fun (acc : Nat × Cache) pq =>
          let res := isRectangleValid pq.1 pq.2 samples points ve he acc.2
          if res.1 then
            let a := area pq.1 pq.2
            (if acc.1 < a then a else acc.1, res.2)
          else (acc.1, res.2)) (m2, cache)).1 ≤
        l.foldl (fun maxArea pq =>
          let currentArea := area pq.1 pq.2
          if maxArea < currentArea then currentArea else maxArea) m1
  | [], _, _, _, h => h
  | pq :: rest, m2, m1, cache, h => by
    have hstep : ((fun (acc : Nat × Cache) pq =>
        let res := isRectangleValid pq.1 pq.2 samples points ve he acc.2
        if res.1 then
          let a := area pq.1 pq.2
          (if acc.1 < a then a else acc.1, res.2)
        else (acc.1, res.2)) (m2, cache) pq).1 ≤
        (fun (maxArea : Nat) pq =>
          let currentArea := area pq.1 pq.2
          if maxArea < currentArea then currentArea else maxArea) m1 pq := by
      show (if (isRectangleValid pq.1 pq.2 samples points ve he cache).1 then
          ((if m2 < area pq.1 pq.2 then area pq.1 pq.2 else m2 : Nat),
            (isRectangleValid pq.1 pq.2 samples points ve he cache).2)
        else (m2, (isRectangleValid pq.1 pq.2 samples points ve he cache).2)).1 ≤
        (if m1 < area pq.1 pq.2 then area pq.1 pq.2 else m1)
      split
      · show (if m2 < area pq.1 pq.2 then area pq.1 pq.2 else m2) ≤
          (if m1 < area pq.1 pq.2 then area pq.1 pq.2 else m1)
        split <;> split <;> omega
      · show m2 ≤ (if m1 < area pq.1 pq.2 then area pq.1 pq.2 else m1)
        split <;> omega
    rw [List.foldl_cons, List.foldl_cons]
    exact foldl_valid_le samples points ve he rest _ _ _ hstep

/-- C9: the polygon-constrained maximum never exceeds the unconstrained
pairwise maximum: `part2` maximises the same inclusive bounding-box area over
the validated subset of the pairs `part1` maximises over, and both start the
accumulator at 0. -/
theorem c9_part2_le_part1 (points : List Point) : part2 points ≤ part1 points :=
  foldl_valid_le (ySamples points) points (buildEdges points).2
    (buildEdges points).1 (pairsList points) 0 0 [] le_rfl

theorem ySamples_sorted (points : List Point) :
    (ySamples points).Sorted (· ≤ ·) := by
  have hchain := midpointsInterleave_chain (uniqueY points) (uniqueY_sorted points)
  have hpw : (ySamples points).Pairwise (· < ·) :=
    List.chain'_iff_pairwise.mp hchain
  exact hpw.imp fun h => Int.le_of_lt h

theorem part2_foldl_pure (samples : List Half) (points : List Point)
    (ve : List VerticalEdge) (he : List HorizontalEdge)
    (hsorted : samples.Sorted (· ≤ ·)) :
    ∀ (l : List (Point × Point)) (m : Nat) (cache : Cache),
      CoherentCache points ve he cache →
      (l.foldl (fun (acc : Nat × Cache) pq =>
          let res := isRectangleValid pq.1 pq.2 samples points ve he acc.2
          if res.1 then
            let a := area pq.1 pq.2
            (if acc.1 < a then a else acc.1, res.2)
          else (acc.1, res.2)) (m, cache)).1 =
        l.foldl (fun m0 pq =>
          if PureValid pq.1 pq.2 samples points ve he
          then (if m0 < area pq.1 pq.2 then area pq.1 pq.2 else m0) else m0) m
  | [], _, _, _ => rfl
  | pq :: rest, m, cache, hc => by
    obtain ⟨hcoh2, hiff⟩ :=
      isRectangleValid_spec pq.1 pq.2 samples points ve he cache hsorted hc
    rw [List.foldl_cons, List.foldl_cons]
    show (List.foldl _
        (if (isRectangleValid pq.1 pq.2 samples points ve he cache).1 then
          ((if m < area pq.1 pq.2 then area pq.1 pq.2 else m : Nat),
            (isRectangleValid pq.1 pq.2 samples points ve he cache).2)
        else (m, (isRectangleValid pq.1 pq.2 samples points ve he cache).2))
        rest).1 =
      List.foldl _
        (if PureValid pq.1 pq.2 samples points ve he
         then (if m < area pq.1 pq.2 then area pq.1 pq.2 else m) else m) rest
    by_cases hv : PureValid pq.1 pq.2 samples points ve he
    · rw [if_pos (hiff.mpr hv), if_pos hv]
      exact part2_foldl_pure samples points ve he hsorted rest _ _ hcoh2
    · rw [if_neg (fun hh => hv (hiff.mp hh)), if_neg hv]
      exact part2_foldl_pure samples points ve he hsorted rest _ _ hcoh2

theorem part2_eq_pure (points : List Point) :
    part2 points = (pairsList points).foldl (fun m0 pq =>
        if PureValid pq.1 pq.2 (ySamples points) points (buildEdges points).2
            (buildEdges points).1
        then (if m0 < area pq.1 pq.2 then area pq.1 pq.2 else m0) else m0) 0 :=
  part2_foldl_pure (ySamples points) points (buildEdges points).2
    (buildEdges points).1 (ySamples_sorted points) (pairsList points) 0 []
    (coherent_nil _ _ _)

theorem pairsList_mem {α : Type} : ∀ (l : List α) (pq : α × α),
    pq ∈ pairsList l → pq.1 ∈ l ∧ pq.2 ∈ l
  | [], pq, h => by simp [pairsList] at h
  | p :: rest, pq, h => by
    rw [pairsList, List.mem_append] at h
    rcases h with h | h
    · rw [List.mem_map] at h
      obtain ⟨q, hq, rfl⟩ := h
      exact ⟨by simp, by simp [hq]⟩
    · have hrec := pairsList_mem rest pq h
      exact ⟨List.mem_cons_of_mem _ hrec.1, List.mem_cons_of_mem _ hrec.2⟩

theorem rect_cyclePairs (x1 x2 y1 y2 : Int) :
    (([⟨x1, y1⟩, ⟨x2, y1⟩, ⟨x2, y2⟩, ⟨x1, y2⟩] : List Point).zip
      (([⟨x1, y1⟩, ⟨x2, y1⟩, ⟨x2, y2⟩, ⟨x1, y2⟩] : List Point).rotate 1)) =
      [(⟨x1, y1⟩, ⟨x2, y1⟩), (⟨x2, y1⟩, ⟨x2, y2⟩),
        (⟨x2, y2⟩, ⟨x1, y2⟩), (⟨x1, y2⟩, ⟨x1, y1⟩)] := by
  rfl

theorem rect_buildEdges (x1 x2 y1 y2 : Int) (hx : x1 < x2) (hy : y1 < y2) :
    buildEdges [⟨x1, y1⟩, ⟨x2, y1⟩, ⟨x2, y2⟩, ⟨x1, y2⟩] =
      ([⟨y1, x1, x2⟩, ⟨y2, x1, x2⟩], [⟨x2, y1, y2⟩, ⟨x1, y1, y2⟩]) := by
  simp only [buildEdges, rect_cyclePairs, List.filterMap_cons, List.filterMap_nil,
    hy.ne, hy.ne', if_true, if_false, ite_true, ite_false, reduceCtorEq,
    min_eq_left hx.le, max_eq_right hx.le, min_eq_right hx.le, max_eq_left hx.le,
    min_eq_left hy.le, max_eq_right hy.le, min_eq_right hy.le, max_eq_left hy.le]

theorem rect_uniqueY (x1 x2 y1 y2 : Int) (hy : y1 < y2) :
    uniqueY [⟨x1, y1⟩, ⟨x2, y1⟩, ⟨x2, y2⟩, ⟨x1, y2⟩] = [y1, y2] := by
  show List.insertionSort (fun a b => a ≤ b)
    ([y1, y1, y2, y2] : List Int).dedup = [y1, y2]
  rw [List.dedup_cons_of_mem (by simp : (y1 : Int) ∈ [y1, y2, y2]),
    List.dedup_cons_of_not_mem (by simp [hy.ne] : (y1 : Int) ∉ [y2, y2]),
    List.dedup_cons_of_mem (by simp : (y2 : Int) ∈ [y2]),
    List.dedup_cons_of_not_mem (List.not_mem_nil y2), List.dedup_nil]
  simp [List.insertionSort, List.orderedInsert, hy.le]

theorem rect_ySamples (x1 x2 y1 y2 : Int) (hy : y1 < y2) :
    ySamples [⟨x1, y1⟩, ⟨x2, y1⟩, ⟨x2, y2⟩, ⟨x1, y2⟩] =
      [Half.ofInt y1, Half.avgInt y1 y2, Half.ofInt y2] := by
  unfold ySamples
  rw [rect_uniqueY x1 x2 y1 y2 hy]
  rfl

theorem rect_interior (x1 x2 y1 y2 : Int) (hx : x1 < x2) (yq : Half)
    (h1 : Half.ofInt y1 < yq) (h2 : yq < Half.ofInt y2) :
    getInteriorAtY yq [⟨x2, y1, y2⟩, ⟨x1, y1, y2⟩] = [⟨x1, x2⟩] := by
  have hc1 : decide (Half.ofInt y1 < yq) = true := decide_eq_true h1
  have hc2 : decide (yq < Half.ofInt y2) = true := decide_eq_true h2
  have hnot : ¬ (x2 ≤ x1) := not_le.mpr hx
  show pairUp (List.insertionSort (fun a b => a ≤ b)
    ((([⟨x2, y1, y2⟩, ⟨x1, y1, y2⟩] : List VerticalEdge).filter fun e =>
        decide (Half.ofInt e.y1 < yq) && decide (yq < Half.ofInt e.y2)).map
      fun e => e.x)) = [⟨x1, x2⟩]
  simp [List.filter_cons, hc1, hc2, List.insertionSort, List.orderedInsert,
    hnot, pairUp]

theorem rect_interior_out (x1 x2 y1 y2 : Int) (yq : Half)
    (hcond : (decide (Half.ofInt y1 < yq) && decide (yq < Half.ofInt y2)) = false) :
    getInteriorAtY yq [⟨x2, y1, y2⟩, ⟨x1, y1, y2⟩] = [] := by
  show pairUp (List.insertionSort (fun a b => a ≤ b)
    ((([⟨x2, y1, y2⟩, ⟨x1, y1, y2⟩] : List VerticalEdge).filter fun e =>
        decide (Half.ofInt e.y1 < yq) && decide (yq < Half.ofInt e.y2)).map
      fun e => e.x)) = []
  simp [List.filter_cons, hcond, List.insertionSort, pairUp]

theorem mergeRanges_pair_same (x1 x2 : Int) (h : x1 ≤ x2) :
    mergeRanges [⟨x1, x2⟩, ⟨x1, x2⟩] = [⟨x1, x2⟩] := by
  unfold mergeRanges
  rw [show List.insertionSort (fun a b => a.start ≤ b.start)
      [(⟨x1, x2⟩ : Range), ⟨x1, x2⟩] = [⟨x1, x2⟩, ⟨x1, x2⟩] from by
    simp [List.insertionSort, List.orderedInsert]]
  show mergeLoop ⟨x1, x2⟩ [⟨x1, x2⟩] = [⟨x1, x2⟩]
  rw [mergeLoop, if_neg (show ¬ ((⟨x1, x2⟩ : Range).stop <
    (⟨x1, x2⟩ : Range).start) from by
      show ¬ (x2 < x1)
      omega), mergeLoop]
  simp

theorem rect_cov_bottom (x1 x2 y1 y2 : Int) (hx : x1 < x2) (hy : y1 < y2) :
    computeCoverage (Half.ofInt y1) [⟨x1, y1⟩, ⟨x2, y1⟩, ⟨x2, y2⟩, ⟨x1, y2⟩]
      [⟨x2, y1, y2⟩, ⟨x1, y1, y2⟩] [⟨y1, x1, x2⟩, ⟨y2, x1, x2⟩] = [⟨x1, x2⟩] := by
  unfold computeCoverage
  have hany : (([⟨x1, y1⟩, ⟨x2, y1⟩, ⟨x2, y2⟩, ⟨x1, y2⟩] : List Point).any
      fun p => Half.ofInt p.y == Half.ofInt y1) = true := by
    simp
  rw [if_pos hany]
  have hi1 : getInteriorAtY (Half.ofInt y1 + eps) [⟨x2, y1, y2⟩, ⟨x1, y1, y2⟩] =
      [⟨x1, x2⟩] := by
    apply rect_interior x1 x2 y1 y2 hx
    · rw [Half.lt_def]
      show (2 * y1 : Int) < 2 * y1 + 1
      omega
    · rw [Half.lt_def]
      show (2 * y1 + 1 : Int) < 2 * y2
      omega
  have hi2 : getInteriorAtY (Half.ofInt y1 - eps) [⟨x2, y1, y2⟩, ⟨x1, y1, y2⟩] =
      [] := by
    apply rect_interior_out
    have hfalse : decide (Half.ofInt y1 < Half.ofInt y1 - eps) = false := by
      apply decide_eq_false
      rw [Half.lt_def]
      show ¬ (2 * y1 : Int) < 2 * y1 - 1
      omega
    rw [hfalse, Bool.false_and]
  have hne : (Half.ofInt y2 == Half.ofInt y1) = false := by
    rw [beq_eq_false_iff_ne]
    intro hcontra
    have h2 := congrArg Half.twice hcontra
    show False
    simp only [Half.ofInt] at h2
    omega
  have hh : (([⟨y1, x1, x2⟩, ⟨y2, x1, x2⟩] : List HorizontalEdge).filter
      fun e => Half.ofInt e.y == Half.ofInt y1) = [⟨y1, x1, x2⟩] := by
    simp [List.filter_cons, hne]
  rw [hi1, hi2, hh]
  show mergeRanges [⟨x1, x2⟩, ⟨x1, x2⟩] = [⟨x1, x2⟩]
  exact mergeRanges_pair_same x1 x2 hx.le

theorem rect_cov_top (x1 x2 y1 y2 : Int) (hx : x1 < x2) (hy : y1 < y2) :
    computeCoverage (Half.ofInt y2) [⟨x1, y1⟩, ⟨x2, y1⟩, ⟨x2, y2⟩, ⟨x1, y2⟩]
      [⟨x2, y1, y2⟩, ⟨x1, y1, y2⟩] [⟨y1, x1, x2⟩, ⟨y2, x1, x2⟩] = [⟨x1, x2⟩] := by
  unfold computeCoverage
  have hany : (([⟨x1, y1⟩, ⟨x2, y1⟩, ⟨x2, y2⟩, ⟨x1, y2⟩] : List Point).any
      fun p => Half.ofInt p.y == Half.ofInt y2) = true := by
    simp
  rw [if_pos hany]
  have hi1 : getInteriorAtY (Half.ofInt y2 + eps) [⟨x2, y1, y2⟩, ⟨x1, y1, y2⟩] =
      [] := by
    apply rect_interior_out
    have hfalse : decide (Half.ofInt y2 + eps < Half.ofInt y2) = false := by
      apply decide_eq_false
      rw [Half.lt_def]
      show ¬ (2 * y2 + 1 : Int) < 2 * y2
      omega
    rw [hfalse, Bool.and_false]
  have hi2 : getInteriorAtY (Half.ofInt y2 - eps) [⟨x2, y1, y2⟩, ⟨x1, y1, y2⟩] =
      [⟨x1, x2⟩] := by
    apply rect_interior x1 x2 y1 y2 hx
    · rw [Half.lt_def]
      show (2 * y1 : Int) < 2 * y2 - 1
      omega
    · rw [Half.lt_def]
      show (2 * y2 - 1 : Int) < 2 * y2
      omega
  have hne : (Half.ofInt y1 == Half.ofInt y2) = false := by
    rw [beq_eq_false_iff_ne]
    intro hcontra
    have h2 := congrArg Half.twice hcontra
    show False
    simp only [Half.ofInt] at h2
    omega
  have hh : (([⟨y1, x1, x2⟩, ⟨y2, x1, x2⟩] : List HorizontalEdge).filter
      fun e => Half.ofInt e.y == Half.ofInt y2) = [⟨y2, x1, x2⟩] := by
    simp [List.filter_cons, hne]
  rw [hi1, hi2, hh]
  show mergeRanges [⟨x1, x2⟩, ⟨x1, x2⟩] = [⟨x1, x2⟩]
  exact mergeRanges_pair_same x1 x2 hx.le

theorem rect_cov_mid (x1 x2 y1 y2 : Int) (hx : x1 < x2) (hy : y1 < y2) :
    computeCoverage (Half.avgInt y1 y2) [⟨x1, y1⟩, ⟨x2, y1⟩, ⟨x2, y2⟩, ⟨x1, y2⟩]
      [⟨x2, y1, y2⟩, ⟨x1, y1, y2⟩] [⟨y1, x1, x2⟩, ⟨y2, x1, x2⟩] = [⟨x1, x2⟩] := by
  unfold computeCoverage
  have hne1 : (Half.ofInt y1 == Half.avgInt y1 y2) = false := by
    rw [beq_eq_false_iff_ne]
    intro hcontra
    have h2 := congrArg Half.twice hcontra
    show False
    simp only [Half.ofInt, Half.avgInt] at h2
    omega
  have hne2 : (Half.ofInt y2 == Half.avgInt y1 y2) = false := by
    rw [beq_eq_false_iff_ne]
    intro hcontra
    have h2 := congrArg Half.twice hcontra
    show False
    simp only [Half.ofInt, Half.avgInt] at h2
    omega
  have hany : (([⟨x1, y1⟩, ⟨x2, y1⟩, ⟨x2, y2⟩, ⟨x1, y2⟩] : List Point).any
      fun p => Half.ofInt p.y == Half.avgInt y1 y2) = false := by
    simp [List.any_cons, hne1, hne2]
  rw [if_neg (by rw [hany]; exact Bool.false_ne_true)]
  apply rect_interior x1 x2 y1 y2 hx
  · rw [Half.lt_def]
    show (2 * y1 : Int) < y1 + y2
    omega
  · rw [Half.lt_def]
    show (y1 + y2 : Int) < 2 * y2
    omega

theorem rect_pure_valid (x1 x2 y1 y2 : Int) (hx : x1 < x2) (hy : y1 < y2)
    (p1 p2 : Point)
    (h1 : p1 ∈ ([⟨x1, y1⟩, ⟨x2, y1⟩, ⟨x2, y2⟩, ⟨x1, y2⟩] : List Point))
    (h2 : p2 ∈ ([⟨x1, y1⟩, ⟨x2, y1⟩, ⟨x2, y2⟩, ⟨x1, y2⟩] : List Point)) :
    PureValid p1 p2 (ySamples [⟨x1, y1⟩, ⟨x2, y1⟩, ⟨x2, y2⟩, ⟨x1, y2⟩])
      [⟨x1, y1⟩, ⟨x2, y1⟩, ⟨x2, y2⟩, ⟨x1, y2⟩]
      (buildEdges [⟨x1, y1⟩, ⟨x2, y1⟩, ⟨x2, y2⟩, ⟨x1, y2⟩]).2
      (buildEdges [⟨x1, y1⟩, ⟨x2, y1⟩, ⟨x2, y2⟩, ⟨x1, y2⟩]).1 := by
  have hedges := rect_buildEdges x1 x2 y1 y2 hx hy
  have hbx1 : x1 ≤ p1.x ∧ p1.x ≤ x2 := by
    simp only [List.mem_cons, List.not_mem_nil, or_false] at h1
    rcases h1 with rfl | rfl | rfl | rfl
    · exact ⟨le_refl _, hx.le⟩
    · exact ⟨hx.le, le_refl _⟩
    · exact ⟨hx.le, le_refl _⟩
    · exact ⟨le_refl _, hx.le⟩
  have hbx2 : x1 ≤ p2.x ∧ p2.x ≤ x2 := by
    simp only [List.mem_cons, List.not_mem_nil, or_false] at h2
    rcases h2 with rfl | rfl | rfl | rfl
    · exact ⟨le_refl _, hx.le⟩
    · exact ⟨hx.le, le_refl _⟩
    · exact ⟨hx.le, le_refl _⟩
    · exact ⟨le_refl _, hx.le⟩
  intro y hymem hmin hmax
  rw [rect_ySamples x1 x2 y1 y2 hy] at hymem
  simp only [List.mem_cons, List.not_mem_nil, or_false] at hymem
  have hcov : computeCoverage y [⟨x1, y1⟩, ⟨x2, y1⟩, ⟨x2, y2⟩, ⟨x1, y2⟩]
      (buildEdges [⟨x1, y1⟩, ⟨x2, y1⟩, ⟨x2, y2⟩, ⟨x1, y2⟩]).2
      (buildEdges [⟨x1, y1⟩, ⟨x2, y1⟩, ⟨x2, y2⟩, ⟨x1, y2⟩]).1 = [⟨x1, x2⟩] := by
    rw [hedges]
    rcases hymem with rfl | rfl | rfl
    · exact rect_cov_bottom x1 x2 y1 y2 hx hy
    · exact rect_cov_mid x1 x2 y1 y2 hx hy
    · exact rect_cov_top x1 x2 y1 y2 hx hy
  rw [hcov]
  refine ⟨⟨x1, x2⟩, by simp, ?_, ?_⟩
  · exact le_min hbx1.1 hbx2.1
  · exact max_le hbx1.2 hbx2.2

theorem foldl_pure_all_valid (samples : List Half) (points : List Point)
    (ve : List VerticalEdge) (he : List HorizontalEdge) :
    ∀ (l : List (Point × Point)) (m : Nat),
      (∀ pq ∈ l, PureValid pq.1 pq.2 samples points ve he) →
      l.foldl (fun m0 pq =>
          if PureValid pq.1 pq.2 samples points ve he
          then (if m0 < area pq.1 pq.2 then area pq.1 pq.2 else m0) else m0) m =
        l.foldl (fun m0 pq => max m0 (area pq.1 pq.2)) m
  | [], _, _ => rfl
  | pq :: rest, m, hall => by
    rw [List.foldl_cons, List.foldl_cons, if_pos (hall pq (by simp))]
    rw [show (if m < area pq.1 pq.2 then area pq.1 pq.2 else m) =
        max m (area pq.1 pq.2) from by
      rcases Nat.lt_or_ge m (area pq.1 pq.2) with h | h
      · rw [if_pos h, Nat.max_eq_right (Nat.le_of_lt h)]
      · rw [if_neg (Nat.not_lt.mpr h), Nat.max_eq_left h]]
    exact foldl_pure_all_valid samples points ve he rest _
      fun q hq => hall q (by simp [hq])

/-- C7: for an axis-aligned rectangle polygon given as its four corner points
(bottom-left, bottom-right, top-right, top-left), `part2` returns the
rectangle's own inclusive-lattice area `(|dx|+1) * (|dy|+1)`. -/
theorem c7_rectangle_part2 (x1 x2 y1 y2 : Int) (hx : x1 < x2) (hy : y1 < y2) :
    part2 [⟨x1, y1⟩, ⟨x2, y1⟩, ⟨x2, y2⟩, ⟨x1, y2⟩] =
      ((x2 - x1).natAbs + 1) * ((y2 - y1).natAbs + 1) := by
  rw [part2_eq_pure]
  rw [foldl_pure_all_valid _ _ _ _ _ _ fun pq hpq =>
    rect_pure_valid x1 x2 y1 y2 hx hy pq.1 pq.2
      (pairsList_mem _ pq hpq).1 (pairsList_mem _ pq hpq).2]
  show List.foldl (fun m0 pq => max m0 (area pq.1 pq.2)) 0
    [((⟨x1, y1⟩ : Point), (⟨x2, y1⟩ : Point)), (⟨x1, y1⟩, ⟨x2, y2⟩),
      (⟨x1, y1⟩, ⟨x1, y2⟩), (⟨x2, y1⟩, ⟨x2, y2⟩), (⟨x2, y1⟩, ⟨x1, y2⟩),
      (⟨x2, y2⟩, ⟨x1, y2⟩)] = ((x2 - x1).natAbs + 1) * ((y2 - y1).natAbs + 1)
  simp only [List.foldl_cons, List.foldl_nil, area]
  have hxx : (x1 - x2).natAbs = (x2 - x1).natAbs := by omega
  have hyy : (y1 - y2).natAbs = (y2 - y1).natAbs := by omega
  simp only [sub_self, Int.natAbs_zero, hxx, hyy, Nat.zero_add, Nat.mul_one,
    Nat.one_mul]
  have hA : (x2 - x1).natAbs + 1 ≤
      ((x2 - x1).natAbs + 1) * ((y2 - y1).natAbs + 1) :=
    Nat.le_mul_of_pos_right _ (Nat.succ_pos _)
  have hB : (y2 - y1).natAbs + 1 ≤
      ((x2 - x1).natAbs + 1) * ((y2 - y1).natAbs + 1) :=
    Nat.le_mul_of_pos_left _ (Nat.succ_pos _)
  rw [Nat.zero_max, Nat.max_eq_right hA, Nat.max_eq_left hB, Nat.max_eq_left hB,
    Nat.max_self, Nat.max_eq_left hA]

/-- C7 witness: the 11 × 11 square `(0,0),(10,0),(10,10),(0,10)` gives 121. -/
theorem c7_rectangle_part2_witness :
    part2 [⟨0, 0⟩, ⟨10, 0⟩, ⟨10, 10⟩, ⟨0, 10⟩] = 121 :=
  (c7_rectangle_part2 0 10 0 10 (by decide) (by decide)).trans (by decide)

end Day9
